import Mathlib

/-!
Verification of the MinimalBitTorrentClient piece coordinator, wire codec,
tracker parsing, peer-session loop and file assembly.

The Python source is shallowly embedded: byte strings become `List Nat`,
Python dicts become sorted association lists (lookup, membership and
key-ordered iteration agree with the dict operations actually used by the
source), Python sets become lists used only through membership and insertion,
and code that can raise returns `Except`.  SHA-1 is kept as an explicit
function parameter `sha1`; every theorem quantifying over it therefore covers
the real hash as one instance.
-/

namespace MiniBT

/-- Byte strings are modelled as lists of byte values. -/
abbrev Bytes := List Nat

/-- `BLOCK_SIZE = 16384` (minimal_bittorrent_client.py line 40). -/
def BLOCK_SIZE : Nat := 16384

/-- State of one piece: the record stored at `piece_info[i]` by
`PieceManager.__init__` (piece_manager.py lines 40-45). -/
structure Piece where
  expected_length : Nat
  blocks : List (Nat × Bytes)
  requested : List Nat
  complete : Bool
deriving Repr, DecidableEq, Inhabited

/-- The `PieceManager` object state (piece_manager.py lines 11-47). -/
structure PieceManager where
  pieces_hash : Bytes
  piece_length : Nat
  total_pieces : Nat
  piece_info : List Piece
  completed_pieces : List (Nat × Bytes)
deriving Repr, DecidableEq, Inhabited

/-- Python `k in d` for a dict represented as an association list. -/
def hasKey (l : List (Nat × Bytes)) (k : Nat) : Bool :=
  l.any (fun p => p.1 == k)

/-- Python `d.get(k)` (`d[k]` when the key is present). -/
def lookupKey (l : List (Nat × Bytes)) (k : Nat) : Option Bytes :=
  (l.find? (fun p => p.1 == k)).map (fun p => p.2)

/-- Python `d[k] = v`.  Entries are kept sorted by key so that iterating the
list in order is iterating the dict in key order; an existing key is
overwritten. -/
def insertKey (k : Nat) (v : Bytes) : List (Nat × Bytes) → List (Nat × Bytes)
  | [] => [(k, v)]
  | (k', v') :: rest =>
    if k < k' then (k, v) :: (k', v') :: rest
    else if k = k' then (k, v) :: rest
    else (k', v') :: insertKey k v rest

/-- `sum(len(block) for block in blocks.values())` (piece_manager.py line 79). -/
def sumLens (l : List (Nat × Bytes)) : Nat :=
  l.foldr (fun p acc => p.2.length + acc) 0

/-- Insertion step of sorting key-value pairs by key. -/
def insertByKey (p : Nat × Bytes) : List (Nat × Bytes) → List (Nat × Bytes)
  | [] => [p]
  | q :: rest => if p.1 ≤ q.1 then p :: q :: rest else q :: insertByKey p rest

/-- `sorted(blocks.keys())`, paired with the stored values. -/
def sortByKey (l : List (Nat × Bytes)) : List (Nat × Bytes) :=
  l.foldr insertByKey []

/-- Piece assembly, `b"".join(blocks[o] for o in sorted(blocks.keys()))`
(piece_manager.py line 82): concatenation of the blocks in ascending offset
order. -/
def assembleBlocks (l : List (Nat × Bytes)) : Bytes :=
  ((sortByKey l).map (fun p => p.2)).flatten

/-- `range(0, expected, BLOCK_SIZE)` (piece_manager.py line 60). -/
def blockOffsets (expected : Nat) : List Nat :=
  (List.range ((expected + BLOCK_SIZE - 1) / BLOCK_SIZE)).map (fun k => k * BLOCK_SIZE)

/-- The availability test of the offset scan:
`offset not in blocks and offset not in requested` (piece_manager.py line 61). -/
def availableIn (p : Piece) (off : Nat) : Bool :=
  !(hasKey p.blocks off) && !(p.requested.contains off)

/-- The inner loop of `get_next_request`: first free offset of one piece. -/
def availOffset (p : Piece) : Option Nat :=
  (blockOffsets p.expected_length).find? (availableIn p)

/-- The outer loop of `get_next_request`: first `(piece index, offset)` over
the pieces in ascending index order, skipping complete pieces and pieces
with no free offset. -/
def scanPieces : List Piece → Option (Nat × Nat)
  | [] => none
  | p :: rest =>
    if p.complete then (scanPieces rest).map (fun io => (io.1 + 1, io.2))
    else
      match availOffset p with
      | some off => some (0, off)
      | none => (scanPieces rest).map (fun io => (io.1 + 1, io.2))

/-- `self.piece_info[i]["requested"].add(offset)` (piece_manager.py line 63). -/
def addRequested (p : Piece) (off : Nat) : Piece :=
  { p with requested := off :: p.requested }

/-- The piece stored at index `i` of the manager's piece table. -/
def pieceAt (pm : PieceManager) (i : Nat) : Piece :=
  (pm.piece_info[i]?).getD default

/-- `PieceManager.get_next_request` (piece_manager.py lines 49-66): the
returned triple (or `None`) together with the updated manager state. -/
def get_next_request (pm : PieceManager) : Option (Nat × Nat × Nat) × PieceManager :=
  match scanPieces pm.piece_info with
  | none => (none, pm)
  | some (i, off) =>
    let p := pieceAt pm i
    (some (i, off, min BLOCK_SIZE (p.expected_length - off)),
     { pm with piece_info := pm.piece_info.set i (addRequested p off) })

/-- `PieceManager.mark_block_received` (piece_manager.py lines 68-94).
`self.piece_info[piece_index]` raises `KeyError` when the index is not a key,
before any mutation: this is the `.error ()` case.  The SHA-1 function is the
parameter `sha1`. -/
def mark_block_received (sha1 : Bytes → Bytes) (pm : PieceManager)
    (piece_index offset : Nat) (data : Bytes) : Except Unit PieceManager :=
  match pm.piece_info[piece_index]? with
  | none => .error ()
  | some p =>
    let blocks' := insertKey offset data p.blocks
    let total_received := sumLens blocks'
    if p.expected_length ≤ total_received then
      let piece_data := assembleBlocks blocks'
      let expected_hash := (pm.pieces_hash.drop (piece_index * 20)).take 20
      if sha1 piece_data = expected_hash then
        .ok { pm with
              piece_info := pm.piece_info.set piece_index
                { p with blocks := blocks', complete := true },
              completed_pieces := insertKey piece_index piece_data pm.completed_pieces }
      else
        .ok { pm with
              piece_info := pm.piece_info.set piece_index
                { p with blocks := [], requested := [] } }
    else
      .ok { pm with
            piece_info := pm.piece_info.set piece_index { p with blocks := blocks' } }

/-- `PieceManager.is_complete` (piece_manager.py lines 96-102). -/
def is_complete (pm : PieceManager) : Bool :=
  pm.piece_info.all (fun p => p.complete)

/-- `PieceManager.__init__` (piece_manager.py lines 12-47), from the decoded
`piece length`, the total length and the concatenated `pieces` hashes. -/
def initPM (piece_length total_length : Nat) (pieces_hash : Bytes) : PieceManager :=
  let total := pieces_hash.length / 20
  { pieces_hash := pieces_hash
    piece_length := piece_length
    total_pieces := total
    piece_info := (List.range total).map (fun i =>
      { expected_length :=
          if i < total - 1 then piece_length
          else total_length - piece_length * (total - 1)
        blocks := []
        requested := []
        complete := false })
    completed_pieces := [] }

/-- A call into the Coordinator's public interface. -/
inductive Op where
  | next : Op
  | mark (piece_index offset : Nat) (data : Bytes) : Op
deriving Repr, DecidableEq

/-- The manager state after one call; a `KeyError` escapes to the caller with
the manager unmodified (the raise happens before any mutation). -/
def applyOp (sha1 : Bytes → Bytes) (pm : PieceManager) : Op → PieceManager
  | .next => (get_next_request pm).2
  | .mark i off d =>
    match mark_block_received sha1 pm i off d with
    | .ok pm' => pm'
    | .error _ => pm

/-- The manager state after a sequence of calls. -/
def runOps (sha1 : Bytes → Bytes) (pm : PieceManager) (ops : List Op) : PieceManager :=
  ops.foldl (applyOp sha1) pm

/-- The termination path of `PeerConnection.run` (peer.py lines 212-217): the
loop breaks and the socket is closed.  No Coordinator method is called, so
the `PieceManager` state is left exactly as it was. -/
def sessionTerminate (pm : PieceManager) : PieceManager := pm

/-- The 19 ASCII bytes of `b"BitTorrent protocol"` (peer.py line 84). -/
def pstrBytes : Bytes :=
  [66, 105, 116, 84, 111, 114, 114, 101, 110, 116, 32,
   112, 114, 111, 116, 111, 99, 111, 108]

/-- `PeerConnection.send_handshake` (peer.py lines 79-89): the 68-byte
handshake message `pstrlen ++ pstr ++ reserved ++ info_hash ++ peer_id`,
with the 8 reserved bytes sent as zeros. -/
def send_handshake (info_hash peer_id : Bytes) : Bytes :=
  [19] ++ pstrBytes ++ List.replicate 8 0 ++ info_hash ++ peer_id

/-- `PeerConnection.receive_handshake` (peer.py lines 91-108) applied to the
incoming byte stream; `recv_all(sock, 68)` yields the first 68 bytes of the
stream (fewer when the stream is shorter). -/
def receive_handshake (stream : Bytes) (local_info_hash : Bytes) : Bool :=
  let handshake := stream.take 68
  if handshake.length < 68 then false
  else
    let pstrlen := handshake.headD 0
    let pstr := (handshake.drop 1).take pstrlen
    if pstr ≠ pstrBytes then false
    else
      let received_info_hash := (handshake.drop (1 + pstrlen + 8)).take 20
      received_info_hash == local_info_hash

/-- `int.from_bytes(b, byteorder="big")`. -/
def fromBytesBE (b : Bytes) : Nat :=
  b.foldl (fun acc x => acc * 256 + x) 0

/-- One 6-byte compact peer record (tracker.py lines 73-77): dotted-quad IPv4
from the first four bytes, big-endian port from the next two. -/
def peerRecord (chunk : Bytes) : String × Nat :=
  (String.intercalate "." ((chunk.take 4).map (fun b => toString b)),
   fromBytesBE ((chunk.drop 4).take 2))

/-- The compact-`peers` loop of `TrackerClient.contact_tracker`
(tracker.py lines 71-77): `for i in range(0, len(peers), 6)` over 6-byte
slices. -/
def parseCompactPeers : Bytes → List (String × Nat)
  | [] => []
  | b1 :: b2 :: b3 :: b4 :: b5 :: b6 :: rest =>
    peerRecord [b1, b2, b3, b4, b5, b6] :: parseCompactPeers rest
  | l => [peerRecord l]

/-- Per-session mutable state used by the steady-state loop of
`PeerConnection.run` (peer.py lines 158-214). -/
structure SessionState where
  choked : Bool
  consecutive_failures : Nat
deriving Repr, DecidableEq

/-- A message sent by the session during one loop iteration. -/
inductive OutMsg where
  | keepAlive : OutMsg
  | request (piece_index offset length : Nat) : OutMsg
deriving Repr, DecidableEq

/-- Incoming event of one loop iteration: `none` is a failed read
(`recv_message` returned `None`), `some none` a keep-alive frame, and
`some (some (id, payload))` a framed message. -/
abbrev RecvEvent := Option (Option (Nat × Bytes))

/-- The request phase at the end of a loop iteration (peer.py lines 207-211):
`if not self.choked`, query the Coordinator and send a request on a
non-`None` result. -/
def finishIter (st : SessionState) (pm : PieceManager) (outs0 : List OutMsg) :
    SessionState × PieceManager × List OutMsg × Bool :=
  if st.choked then (st, pm, outs0, false)
  else
    match get_next_request pm with
    | (some (i, off, len), pm') => (st, pm', outs0 ++ [.request i off len], false)
    | (none, pm') => (st, pm', outs0, false)

/-- One iteration of the steady-state loop of `PeerConnection.run`
(peer.py lines 161-214).  `kaDue` is the wall-clock test
`time.time() - last_activity > KEEPALIVE_INTERVAL`.  The result is
`(state, manager, messages sent, loop breaks)`.  A `struct.error` on a
malformed `have` payload and a `KeyError` from `mark_block_received` are
caught by the outer `except`, which breaks the loop. -/
def loopIter (sha1 : Bytes → Bytes) (kaDue : Bool) (st : SessionState)
    (pm : PieceManager) (ev : RecvEvent) :
    SessionState × PieceManager × List OutMsg × Bool :=
  let outs0 : List OutMsg := if kaDue then [.keepAlive] else []
  match ev with
  | none =>
    let f := st.consecutive_failures + 1
    ({ st with consecutive_failures := f }, pm, outs0, decide (3 ≤ f))
  | some none => ({ st with consecutive_failures := 0 }, pm, outs0, false)
  | some (some (id, payload)) =>
    let st1 : SessionState := { st with consecutive_failures := 0 }
    if id = 0 then
      finishIter { st1 with choked := true } pm outs0
    else if id = 1 then
      finishIter { st1 with choked := false } pm outs0
    else if id = 4 then
      if payload.length = 4 then finishIter st1 pm outs0
      else (st1, pm, outs0, true)
    else if id = 7 then
      if payload.length < 8 then (st1, pm, outs0, false)
      else
        let piece_index := fromBytesBE (payload.take 4)
        let offset := fromBytesBE ((payload.drop 4).take 4)
        let block_data := payload.drop 8
        match mark_block_received sha1 pm piece_index offset block_data with
        | .error _ => (st1, pm, outs0, true)
        | .ok pm' => finishIter st1 pm' outs0
    else
      finishIter st1 pm outs0

/-- The write loop of `TorrentClient.assemble_single_file`
(client.py lines 90-95): pieces already written stay in the file when a
later piece is missing. -/
def assembleLoop (completed : List (Nat × Bytes)) :
    List Nat → Bytes → Bytes × Bool
  | [], written => (written, true)
  | i :: rest, written =>
    match lookupKey completed i with
    | none => (written, false)
    | some d => assembleLoop completed rest (written ++ d)

/-- `TorrentClient.assemble_single_file` (client.py lines 75-98): the output
file is opened with mode `"wb"` (created/truncated) and the pieces are
written one by one; a missing piece raises, the `except` only logs.  The
result is the byte content left in the file and whether assembly succeeded. -/
def assemble_single_file (completed : List (Nat × Bytes)) (total : Nat) :
    Bytes × Bool :=
  assembleLoop completed (List.range total) []

/-- The `full_data` concatenation loop of `TorrentClient.assemble_multi_file`
(client.py lines 117-122): `none` when some piece is missing. -/
def concatPieces (completed : List (Nat × Bytes)) : List Nat → Option Bytes
  | [] => some []
  | i :: rest =>
    match lookupKey completed i with
    | none => none
    | some d => (concatPieces completed rest).map (fun t => d ++ t)

/-- The per-file split of `assemble_multi_file` (client.py lines 124-135):
each file receives `full_data[offset : offset+length]`. -/
def writeFilesFrom (full : Bytes) : Nat → List Nat → List Bytes
  | _, [] => []
  | offset, len :: rest => ((full.drop offset).take len) :: writeFilesFrom full (offset + len) rest

/-- `TorrentClient.assemble_multi_file` (client.py lines 100-137): the
concatenation is built before any file is opened, so a missing piece
(`none`) writes no file at all; on success the written file contents are
returned in order. -/
def assemble_multi_file (completed : List (Nat × Bytes)) (total : Nat)
    (lengths : List Nat) : Option (List Bytes) :=
  (concatPieces completed (List.range total)).map (fun full => writeFilesFrom full 0 lengths)


/-- The hash used in concrete runs: it stands for SHA-1 evaluated at the
single string that matters in each scenario (any 20-byte `pieces` value is a
legal metainfo input, so a matching case is reachable with real SHA-1 by
putting the real digest into `pieces`). -/
def constHash : Bytes → Bytes := fun _ => List.replicate 20 0

/-- The spec's piece-size invariant, restricted to incomplete pieces. -/
def BlocksBounded (pm : PieceManager) : Prop :=
  ∀ i, (pieceAt pm i).complete = false →
    sumLens (pieceAt pm i).blocks ≤ (pieceAt pm i).expected_length

/-- Reachable-state invariant tying `complete` to the completion ledger. -/
def CompleteHasEntry (pm : PieceManager) : Prop :=
  ∀ i, (pieceAt pm i).complete = true → hasKey pm.completed_pieces i = true

/-! ### Association-list lemmas -/

lemma lookupKey_cons (a : Nat) (b : Bytes) (l : List (Nat × Bytes)) (j : Nat) :
    lookupKey ((a, b) :: l) j = if a = j then some b else lookupKey l j := by
  by_cases h : a = j <;> simp [lookupKey, List.find?_cons, h]

lemma hasKey_cons (a : Nat) (b : Bytes) (l : List (Nat × Bytes)) (j : Nat) :
    hasKey ((a, b) :: l) j = ((a == j) || hasKey l j) := by
  simp [hasKey, List.any_cons]

lemma lookupKey_insertKey_self (k : Nat) (v : Bytes) (l : List (Nat × Bytes)) :
    lookupKey (insertKey k v l) k = some v := by
  induction l with
  | nil => simp [insertKey, lookupKey_cons]
  | cons q rest ih =>
    obtain ⟨k', v'⟩ := q
    by_cases h1 : k < k'
    · simp [insertKey, h1, lookupKey_cons]
    · by_cases h2 : k = k'
      · simp [insertKey, h1, h2, lookupKey_cons]
      · have hne : k' ≠ k := fun h => h2 h.symm
        simp [insertKey, h1, h2, lookupKey_cons, hne, ih]

lemma lookupKey_insertKey_ne (k : Nat) (v : Bytes) (l : List (Nat × Bytes))
    (j : Nat) (h : j ≠ k) : lookupKey (insertKey k v l) j = lookupKey l j := by
  have hkj : k ≠ j := fun hh => h hh.symm
  induction l with
  | nil => simp [insertKey, lookupKey_cons, hkj, lookupKey]
  | cons q rest ih =>
    obtain ⟨k', v'⟩ := q
    by_cases h1 : k < k'
    · simp [insertKey, h1, lookupKey_cons, hkj]
    · by_cases h2 : k = k'
      · subst h2
        simp [insertKey, h1, lookupKey_cons, hkj]
      · simp [insertKey, h1, h2, lookupKey_cons, ih]

lemma hasKey_insertKey_self (k : Nat) (v : Bytes) (l : List (Nat × Bytes)) :
    hasKey (insertKey k v l) k = true := by
  induction l with
  | nil => simp [insertKey, hasKey_cons]
  | cons q rest ih =>
    obtain ⟨k', v'⟩ := q
    by_cases h1 : k < k'
    · simp [insertKey, h1, hasKey_cons]
    · by_cases h2 : k = k'
      · simp [insertKey, h1, h2, hasKey_cons]
      · simp [insertKey, h1, h2, hasKey_cons, ih]

lemma hasKey_insertKey_of (k : Nat) (v : Bytes) (l : List (Nat × Bytes))
    (j : Nat) (h : hasKey l j = true) : hasKey (insertKey k v l) j = true := by
  induction l with
  | nil => simp [hasKey] at h
  | cons q rest ih =>
    obtain ⟨k', v'⟩ := q
    rw [hasKey_cons] at h
    by_cases h1 : k < k'
    · simp only [insertKey, if_pos h1, hasKey_cons]
      simp only [Bool.or_eq_true] at h ⊢
      tauto
    · by_cases h2 : k = k'
      · subst h2
        have hins : insertKey k v ((k, v') :: rest) = (k, v) :: rest := by
          simp [insertKey, h1]
        rw [hins, hasKey_cons]
        exact h
      · simp only [insertKey, if_neg h1, if_neg h2, hasKey_cons]
        simp only [Bool.or_eq_true] at h ⊢
        rcases h with h | h
        · exact Or.inl h
        · exact Or.inr (ih h)

/-! ### Offset-scan lemmas -/

lemma find?_range_first (q : Nat → Bool) (n k : Nat)
    (h : (List.range n).find? q = some k) :
    q k = true ∧ k < n ∧ ∀ m, m < k → q m = false := by
  induction n with
  | zero => simp [List.range_zero] at h
  | succ n ih =>
    rw [List.range_succ, List.find?_append] at h
    cases hfind : (List.range n).find? q with
    | some k' =>
      rw [hfind] at h
      simp only [Option.or_some] at h
      obtain rfl : k' = k := by simpa using h
      obtain ⟨h1, h2, h3⟩ := ih hfind
      exact ⟨h1, Nat.lt_succ_of_lt h2, h3⟩
    | none =>
      rw [hfind] at h
      simp only [Option.none_or] at h
      have hall := List.find?_eq_none.mp hfind
      by_cases hq : q n = true
      · rw [List.find?_cons_of_pos _ hq] at h
        obtain rfl : n = k := by simpa using h
        refine ⟨hq, Nat.lt_succ_self _, fun m hm => ?_⟩
        simpa using hall m (List.mem_range.mpr hm)
      · rw [List.find?_cons_of_neg _ hq] at h
        simp [List.find?] at h

lemma mul_lt_iff_lt_ceil (k e : Nat) :
    k < (e + BLOCK_SIZE - 1) / BLOCK_SIZE ↔ k * BLOCK_SIZE < e := by
  unfold BLOCK_SIZE
  constructor
  · intro h
    have h' : (k + 1) * 16384 ≤ e + 16384 - 1 :=
      (Nat.le_div_iff_mul_le (by norm_num)).mp h
    omega
  · intro h
    have h' : (k + 1) * 16384 ≤ e + 16384 - 1 := by omega
    exact (Nat.le_div_iff_mul_le (by norm_num)).mpr h'

lemma mem_blockOffsets {off e : Nat} :
    off ∈ blockOffsets e ↔ off % BLOCK_SIZE = 0 ∧ off < e := by
  unfold blockOffsets
  simp only [List.mem_map, List.mem_range]
  constructor
  · rintro ⟨k, hk, rfl⟩
    exact ⟨Nat.mul_mod_left k BLOCK_SIZE, (mul_lt_iff_lt_ceil k e).mp hk⟩
  · rintro ⟨hm, hlt⟩
    refine ⟨off / BLOCK_SIZE, (mul_lt_iff_lt_ceil _ e).mpr ?_, ?_⟩ <;>
      rw [Nat.div_mul_cancel (Nat.dvd_of_mod_eq_zero hm)]
    exact hlt

lemma availOffset_some (p : Piece) (off : Nat) (h : availOffset p = some off) :
    off % BLOCK_SIZE = 0 ∧ off < p.expected_length ∧ availableIn p off = true ∧
      ∀ off', off' % BLOCK_SIZE = 0 → off' < off → availableIn p off' = false := by
  unfold availOffset blockOffsets at h
  rw [List.find?_map] at h
  cases hf : (List.range ((p.expected_length + BLOCK_SIZE - 1) / BLOCK_SIZE)).find?
      (availableIn p ∘ fun k => k * BLOCK_SIZE) with
  | none => rw [hf] at h; simp at h
  | some k =>
    rw [hf] at h
    simp only [Option.map_some'] at h
    obtain rfl : k * BLOCK_SIZE = off := by simpa using h
    obtain ⟨hq, hk, hmin⟩ := find?_range_first _ _ _ hf
    refine ⟨Nat.mul_mod_left k BLOCK_SIZE, (mul_lt_iff_lt_ceil k _).mp hk,
      hq, fun off' hm hlt => ?_⟩
    have hoff' : off' / BLOCK_SIZE * BLOCK_SIZE = off' :=
      Nat.div_mul_cancel (Nat.dvd_of_mod_eq_zero hm)
    have hmlt : off' / BLOCK_SIZE < k := by
      have h2 : off' / BLOCK_SIZE * BLOCK_SIZE < k * BLOCK_SIZE := by omega
      exact Nat.lt_of_mul_lt_mul_right h2
    have h3 := hmin _ hmlt
    rw [← hoff']
    simpa using h3

lemma availOffset_none (p : Piece) : availOffset p = none ↔
    ∀ off, off % BLOCK_SIZE = 0 → off < p.expected_length →
      availableIn p off = false := by
  unfold availOffset
  rw [List.find?_eq_none]
  constructor
  · intro h off hm hlt
    have hmem : off ∈ blockOffsets p.expected_length := mem_blockOffsets.mpr ⟨hm, hlt⟩
    simpa using h off hmem
  · intro h x hx
    obtain ⟨hm, hlt⟩ := mem_blockOffsets.mp hx
    simp [h x hm hlt]

lemma scanPieces_some : ∀ (ps : List Piece) (i off : Nat),
    scanPieces ps = some (i, off) →
    ∃ p, ps[i]? = some p ∧ p.complete = false ∧ availOffset p = some off ∧
      ∀ j, j < i → ∀ q, ps[j]? = some q →
        q.complete = true ∨ availOffset q = none := by
  intro ps
  induction ps with
  | nil => intro i off h; simp [scanPieces] at h
  | cons p rest ih =>
    intro i off h
    by_cases hc : p.complete
    · rw [scanPieces, if_pos hc] at h
      cases hs : scanPieces rest with
      | none => rw [hs] at h; simp at h
      | some io =>
        rw [hs] at h
        simp only [Option.map_some'] at h
        rw [Option.some_inj, Prod.ext_iff] at h
        obtain ⟨h1, h2⟩ := h
        simp only at h1 h2
        obtain ⟨q, hq1, hq2, hq3, hq4⟩ := ih io.1 io.2 (by rw [hs])
        refine ⟨q, ?_, hq2, by rw [← h2]; exact hq3, ?_⟩
        · rw [← h1]; simpa using hq1
        · intro j hj r hr
          cases j with
          | zero =>
            obtain rfl : p = r := by simpa using hr
            exact Or.inl hc
          | succ j' =>
            exact hq4 j' (by omega) r (by simpa using hr)
    · rw [scanPieces, if_neg hc] at h
      cases ha : availOffset p with
      | some off0 =>
        rw [ha] at h
        rw [Option.some_inj, Prod.ext_iff] at h
        obtain ⟨h1, h2⟩ := h
        simp only at h1 h2
        refine ⟨p, ?_, by simpa using hc, ?_, ?_⟩
        · rw [← h1]; simp
        · rw [← h2]; exact ha
        · intro j hj; rw [← h1] at hj; omega
      | none =>
        rw [ha] at h
        cases hs : scanPieces rest with
        | none => rw [hs] at h; simp at h
        | some io =>
          rw [hs] at h
          simp only [Option.map_some'] at h
          rw [Option.some_inj, Prod.ext_iff] at h
          obtain ⟨h1, h2⟩ := h
          simp only at h1 h2
          obtain ⟨q, hq1, hq2, hq3, hq4⟩ := ih io.1 io.2 (by rw [hs])
          refine ⟨q, ?_, hq2, by rw [← h2]; exact hq3, ?_⟩
          · rw [← h1]; simpa using hq1
          · intro j hj r hr
            cases j with
            | zero =>
              obtain rfl : p = r := by simpa using hr
              exact Or.inr ha
            | succ j' =>
              exact hq4 j' (by omega) r (by simpa using hr)

lemma scanPieces_none : ∀ (ps : List Piece),
    scanPieces ps = none ↔
      ∀ (j : Nat) (q : Piece), ps[j]? = some q →
        q.complete = true ∨ availOffset q = none := by
  intro ps
  induction ps with
  | nil =>
    constructor
    · intro _ j q hq
      simp at hq
    · intro _
      rfl
  | cons p rest ih =>
    constructor
    · intro h j q hq
      by_cases hc : p.complete
      · rw [scanPieces, if_pos hc] at h
        cases hs : scanPieces rest with
        | some io => rw [hs] at h; simp at h
        | none =>
          cases j with
          | zero =>
            obtain rfl : p = q := by simpa using hq
            exact Or.inl hc
          | succ j' => exact (ih.mp hs) j' q (by simpa using hq)
      · rw [scanPieces, if_neg hc] at h
        cases ha : availOffset p with
        | some off0 => rw [ha] at h; simp at h
        | none =>
          rw [ha] at h
          cases hs : scanPieces rest with
          | some io => rw [hs] at h; simp at h
          | none =>
            cases j with
            | zero =>
              obtain rfl : p = q := by simpa using hq
              exact Or.inr ha
            | succ j' => exact (ih.mp hs) j' q (by simpa using hq)
    · intro h
      have hrest : scanPieces rest = none :=
        ih.mpr (fun j q hq => h (j + 1) q (by simpa using hq))
      by_cases hc : p.complete
      · rw [scanPieces, if_pos hc, hrest]; rfl
      · have h0 := h 0 p (by simp)
        rcases h0 with h0 | h0
        · exact absurd h0 hc
        · rw [scanPieces, if_neg hc, h0, hrest]; rfl

lemma availableIn_false_iff (p : Piece) (off : Nat) :
    availableIn p off = false ↔
      (hasKey p.blocks off = true ∨ p.requested.contains off = true) := by
  unfold availableIn
  cases h1 : hasKey p.blocks off <;> cases h2 : p.requested.contains off <;> simp

lemma pieceAt_of_getElem {pm : PieceManager} {j : Nat} {q : Piece}
    (h : pm.piece_info[j]? = some q) : pieceAt pm j = q := by
  simp [pieceAt, h]

/-- Claim C1: `get_next_request` scans pieces in ascending index and, within
the first incomplete piece having an available offset, scans the offsets
`0, BLOCK_SIZE, 2*BLOCK_SIZE, ...` below `expected_length`; it returns the
first offset in neither `blocks` nor `requested`, adds that offset to
`requested` in the same step, and returns length
`min(16384, expected_length - offset)` (hence the short final block).  It
returns `None` exactly when every piece is complete or every remaining block
of every incomplete piece is already requested, and then the state is
unchanged. -/
theorem get_next_request_spec (pm : PieceManager) :
    (∀ (i off len : Nat) (pm' : PieceManager),
      get_next_request pm = (some (i, off, len), pm') →
      i < pm.piece_info.length ∧
      (pieceAt pm i).complete = false ∧
      off % 16384 = 0 ∧
      off < (pieceAt pm i).expected_length ∧
      hasKey (pieceAt pm i).blocks off = false ∧
      (pieceAt pm i).requested.contains off = false ∧
      (∀ off', off' % 16384 = 0 → off' < off →
        hasKey (pieceAt pm i).blocks off' = true ∨
          (pieceAt pm i).requested.contains off' = true) ∧
      (∀ j, j < i →
        (pieceAt pm j).complete = true ∨
          ∀ off', off' % 16384 = 0 → off' < (pieceAt pm j).expected_length →
            hasKey (pieceAt pm j).blocks off' = true ∨
              (pieceAt pm j).requested.contains off' = true) ∧
      len = min 16384 ((pieceAt pm i).expected_length - off) ∧
      pm' = { pm with
              piece_info := pm.piece_info.set i (addRequested (pieceAt pm i) off) }) ∧
    ((get_next_request pm).1 = none ↔
      ∀ (i : Nat), (pieceAt pm i).complete = false →
        ∀ off, off % 16384 = 0 → off < (pieceAt pm i).expected_length →
          hasKey (pieceAt pm i).blocks off = false →
            (pieceAt pm i).requested.contains off = true) ∧
    ((get_next_request pm).1 = none → (get_next_request pm).2 = pm) := by
  have hBS : BLOCK_SIZE = 16384 := rfl
  refine ⟨?_, ?_, ?_⟩
  · intro i off len pm' heq
    cases hscan : scanPieces pm.piece_info with
    | none =>
      have hgnr : get_next_request pm = (none, pm) := by
        unfold get_next_request; rw [hscan]
      rw [hgnr] at heq
      simp at heq
    | some io =>
      obtain ⟨i0, off0⟩ := io
      have hgnr : get_next_request pm =
          (some (i0, off0, min BLOCK_SIZE ((pieceAt pm i0).expected_length - off0)),
           { pm with piece_info := pm.piece_info.set i0 (addRequested (pieceAt pm i0) off0) }) := by
        unfold get_next_request; rw [hscan]
      rw [hgnr] at heq
      simp only [Prod.mk.injEq, Option.some_inj] at heq
      obtain ⟨⟨rfl, rfl, hlen⟩, hpm2⟩ := heq
      obtain ⟨p, hp, hpc, hpa, hmin⟩ := scanPieces_some _ _ _ hscan
      have hpat : pieceAt pm i0 = p := pieceAt_of_getElem hp
      have hplen : i0 < pm.piece_info.length := (List.getElem?_eq_some.mp hp).1
      obtain ⟨hoff1, hoff2, hoff3, hoff4⟩ := availOffset_some p off0 hpa
      have havail : hasKey p.blocks off0 = false ∧ p.requested.contains off0 = false := by
        unfold availableIn at hoff3
        constructor
        · cases h : hasKey p.blocks off0
          · rfl
          · rw [h] at hoff3; simp at hoff3
        · cases h : p.requested.contains off0
          · rfl
          · rw [h] at hoff3; simp at hoff3
      refine ⟨hplen, by rw [hpat]; exact hpc,
        by rw [← hBS]; exact hoff1, by rw [hpat]; exact hoff2,
        by rw [hpat]; exact havail.1, by rw [hpat]; exact havail.2,
        ?_, ?_, by rw [← hlen, hBS, hpat], hpm2.symm⟩
      · intro off' hm hlt
        have h5 := hoff4 off' (by rw [hBS]; exact hm) hlt
        rw [hpat]
        exact (availableIn_false_iff p off').mp h5
      · intro j hj
        have hjlen : j < pm.piece_info.length := by omega
        have hq : pm.piece_info[j]? = some pm.piece_info[j] :=
          List.getElem?_eq_some.mpr ⟨hjlen, rfl⟩
        have hqat : pieceAt pm j = pm.piece_info[j] := pieceAt_of_getElem hq
        rcases hmin j hj _ hq with hdone | hnone
        · exact Or.inl (by rw [hqat]; exact hdone)
        · refine Or.inr (fun off' hm hlt => ?_)
          have h6 := (availOffset_none _).mp hnone off' (by rw [hBS]; exact hm)
            (by rw [hqat] at hlt; exact hlt)
          rw [hqat]
          exact (availableIn_false_iff _ off').mp h6
  · constructor
    · intro hnone i hic off hm hlt hkey
      have hscan : scanPieces pm.piece_info = none := by
        cases hs : scanPieces pm.piece_info with
        | none => rfl
        | some io =>
          obtain ⟨i0, off0⟩ := io
          have hgnr : (get_next_request pm).1 =
              some (i0, off0, min BLOCK_SIZE ((pieceAt pm i0).expected_length - off0)) := by
            unfold get_next_request; rw [hs]
          rw [hgnr] at hnone
          cases hnone
      by_cases hrange : i < pm.piece_info.length
      · have hq : pm.piece_info[i]? = some pm.piece_info[i] :=
          List.getElem?_eq_some.mpr ⟨hrange, rfl⟩
        have hqat : pieceAt pm i = pm.piece_info[i] := pieceAt_of_getElem hq
        rcases (scanPieces_none _).mp hscan i _ hq with hdone | hnone'
        · rw [hqat] at hic; rw [hic] at hdone; cases hdone
        · have h6 := (availOffset_none _).mp hnone' off (by rw [hBS]; exact hm)
            (by rw [hqat] at hlt; exact hlt)
          rcases (availableIn_false_iff _ off).mp h6 with h | h
          · rw [hqat] at hkey; rw [hkey] at h; cases h
          · rw [hqat]; exact h
      · exfalso
        have hnonei : pm.piece_info[i]? = none :=
          List.getElem?_eq_none_iff.mpr (by omega)
        have hdef : pieceAt pm i = default := by simp [pieceAt, hnonei]
        have hdef0 : (default : Piece).expected_length = 0 := rfl
        rw [hdef, hdef0] at hlt
        omega
    · intro hcond
      have hscan : scanPieces pm.piece_info = none := by
        rw [scanPieces_none]
        intro j q hq
        have hqat : pieceAt pm j = q := pieceAt_of_getElem hq
        by_cases hdone : q.complete = true
        · exact Or.inl hdone
        · refine Or.inr ((availOffset_none q).mpr fun off hm hlt => ?_)
          rw [availableIn_false_iff]
          by_cases hkey : hasKey q.blocks off = true
          · exact Or.inl hkey
          · refine Or.inr ?_
            have h7 := hcond j (by rw [hqat]; simpa using hdone) off
              (by rw [← hBS]; exact hm) (by rw [hqat]; exact hlt)
              (by rw [hqat]; simpa using hkey)
            rw [hqat] at h7
            exact h7
      have hgnr : get_next_request pm = (none, pm) := by
        unfold get_next_request; rw [hscan]
      rw [hgnr]
  · intro hnone
    cases hs : scanPieces pm.piece_info with
    | none =>
      have hgnr : get_next_request pm = (none, pm) := by
        unfold get_next_request; rw [hs]
      rw [hgnr]
    | some io =>
      obtain ⟨i0, off0⟩ := io
      have hgnr : (get_next_request pm).1 =
          some (i0, off0, min BLOCK_SIZE ((pieceAt pm i0).expected_length - off0)) := by
        unfold get_next_request; rw [hs]
      rw [hgnr] at hnone
      cases hnone

/-- Witness for C1 at a concrete manager: two-block single piece, the first
call selects piece 0, offset 0, length 16384. -/
theorem get_next_request_spec_witness :
    0 < (initPM 32768 32768 (List.replicate 20 3)).piece_info.length ∧
    (pieceAt (initPM 32768 32768 (List.replicate 20 3)) 0).complete = false ∧
    (0 : Nat) % 16384 = 0 :=
  have h := (get_next_request_spec (initPM 32768 32768 (List.replicate 20 3))).1 0 0 16384
    ((get_next_request (initPM 32768 32768 (List.replicate 20 3))).2) (by decide)
  ⟨h.1, h.2.1, h.2.2.1⟩

/-- Claim C2: `mark_block_received` on an in-range index stores the data at
`blocks[offset]` (overwriting a duplicate offset); when the received total
reaches `expected_length` the piece is assembled in ascending offset order
and its SHA-1 compared with `pieces[20i..20(i+1)]`: on a match `complete`
becomes true and the bytes enter the completion ledger, on a mismatch
`blocks` and `requested` are cleared while `complete` keeps its (false)
value; below the threshold only `blocks` changes. -/
theorem mark_block_received_spec (sha1 : Bytes → Bytes) (pm : PieceManager)
    (i off : Nat) (data : Bytes) (p : Piece)
    (hp : pm.piece_info[i]? = some p) :
    lookupKey (insertKey off data p.blocks) off = some data ∧
    (sumLens (insertKey off data p.blocks) < p.expected_length →
      mark_block_received sha1 pm i off data =
        .ok { pm with piece_info :=
                pm.piece_info.set i { p with blocks := insertKey off data p.blocks } }) ∧
    (p.expected_length ≤ sumLens (insertKey off data p.blocks) →
      sha1 (assembleBlocks (insertKey off data p.blocks)) =
        (pm.pieces_hash.drop (i * 20)).take 20 →
      mark_block_received sha1 pm i off data =
        .ok { pm with
              piece_info := pm.piece_info.set i
                { p with blocks := insertKey off data p.blocks, complete := true },
              completed_pieces :=
                insertKey i (assembleBlocks (insertKey off data p.blocks))
                  pm.completed_pieces }) ∧
    (p.expected_length ≤ sumLens (insertKey off data p.blocks) →
      sha1 (assembleBlocks (insertKey off data p.blocks)) ≠
        (pm.pieces_hash.drop (i * 20)).take 20 →
      mark_block_received sha1 pm i off data =
        .ok { pm with piece_info :=
                pm.piece_info.set i { p with blocks := [], requested := [] } }) := by
  refine ⟨lookupKey_insertKey_self _ _ _, ?_, ?_, ?_⟩
  · intro hlt
    unfold mark_block_received
    rw [hp]
    simp only
    rw [if_neg (by omega)]
  · intro hge hhash
    unfold mark_block_received
    rw [hp]
    simp only
    rw [if_pos hge, if_pos hhash]
  · intro hge hhash
    unfold mark_block_received
    rw [hp]
    simp only
    rw [if_pos hge, if_neg hhash]

/-- Witness for C2: depositing one short block into a fresh single-piece
manager stores it at its offset. -/
theorem mark_block_received_spec_witness :
    lookupKey (insertKey 0 [1]
      ({ expected_length := 4, blocks := [], requested := [],
         complete := false } : Piece).blocks) 0 = some [1] :=
  (mark_block_received_spec (fun _ => List.replicate 20 0)
    (initPM 4 4 (List.replicate 20 0)) 0 0 [1]
    { expected_length := 4, blocks := [], requested := [], complete := false }
    (by decide)).1

/-- Claim C3 (violated by the code): a session that reserved offset 0 via
`get_next_request` and then died leaves offset 0 in `requested` — the
termination path of `PeerConnection.run` never releases it and the
`PieceManager` has no release operation.  A later `get_next_request` by
another session therefore skips offset 0, and once the remaining offset is
handed out the Coordinator returns `None` forever although the piece is
incomplete: the block is permanently stranded. -/
theorem stranded_request_after_session_death :
    (get_next_request (initPM 32768 32768 (List.replicate 20 3))).1 =
      some (0, 0, 16384) ∧
    (pieceAt (sessionTerminate
      (get_next_request (initPM 32768 32768 (List.replicate 20 3))).2)
        0).requested.contains 0 = true ∧
    (get_next_request (sessionTerminate
      (get_next_request (initPM 32768 32768 (List.replicate 20 3))).2)).1 =
      some (0, 16384, 16384) ∧
    (get_next_request (get_next_request (sessionTerminate
      (get_next_request (initPM 32768 32768 (List.replicate 20 3))).2)).2).1 =
      none ∧
    is_complete (get_next_request (sessionTerminate
      (get_next_request (initPM 32768 32768 (List.replicate 20 3))).2)).2 =
      false := by
  decide

/-- Counterexample to claim C4 as stated: a single deposit of 5 bytes into a
piece with `expected_length = 4` passes verification (the metainfo carries
the digest of those very bytes), `complete` becomes true, and the retained
`blocks` sum to 5 > 4.  The state is reachable by one
`mark_block_received` call from a freshly initialised manager. -/
theorem blocks_can_exceed_expected_length :
    ¬ (sumLens (pieceAt (runOps constHash (initPM 4 4 (List.replicate 20 0))
        [.mark 0 0 [7, 7, 7, 7, 7]]) 0).blocks ≤
      (pieceAt (runOps constHash (initPM 4 4 (List.replicate 20 0))
        [.mark 0 0 [7, 7, 7, 7, 7]]) 0).expected_length) := by
  decide

lemma pieceAt_set (pm : PieceManager) (ph : Bytes) (plen tot : Nat)
    (cp : List (Nat × Bytes)) (i : Nat) (q : Piece) (j : Nat) :
    pieceAt (PieceManager.mk ph plen tot (pm.piece_info.set i q) cp) j =
      if i = j ∧ i < pm.piece_info.length then q else pieceAt pm j := by
  unfold pieceAt
  simp only [List.getElem?_set]
  by_cases hij : i = j
  · subst hij
    by_cases hlen : i < pm.piece_info.length
    · simp [hlen]
    · simp only [if_pos rfl, if_neg hlen, if_pos, hlen, and_true, true_and, if_false]
      rw [List.getElem?_eq_none_iff.mpr (by omega)]
  · simp [hij]

lemma completed_set (pm : PieceManager) (i : Nat) (q : Piece) :
    ({ pm with piece_info := pm.piece_info.set i q } : PieceManager).completed_pieces =
      pm.completed_pieces := rfl

lemma blocksBounded_next (pm : PieceManager) (h : BlocksBounded pm) :
    BlocksBounded (get_next_request pm).2 := by
  cases hscan : scanPieces pm.piece_info with
  | none =>
    have hgnr : get_next_request pm = (none, pm) := by
      unfold get_next_request; rw [hscan]
    rw [hgnr]
    exact h
  | some io =>
    obtain ⟨i0, off0⟩ := io
    have hgnr : (get_next_request pm).2 =
        { pm with piece_info :=
            pm.piece_info.set i0 (addRequested (pieceAt pm i0) off0) } := by
      unfold get_next_request; rw [hscan]
    rw [hgnr]
    intro j hjc
    rw [pieceAt_set] at hjc ⊢
    by_cases hcond : i0 = j ∧ i0 < pm.piece_info.length
    · rw [if_pos hcond] at hjc ⊢
      obtain ⟨rfl, _⟩ := hcond
      exact h i0 hjc
    · rw [if_neg hcond] at hjc ⊢
      exact h j hjc

lemma blocksBounded_mark (sha1 : Bytes → Bytes) (pm : PieceManager)
    (i off : Nat) (d : Bytes) (h : BlocksBounded pm) :
    BlocksBounded (applyOp sha1 pm (.mark i off d)) := by
  cases hp : pm.piece_info[i]? with
  | none =>
    have herr : mark_block_received sha1 pm i off d = .error () := by
      unfold mark_block_received; rw [hp]
    simp only [applyOp, herr]
    exact h
  | some p =>
    by_cases hge : p.expected_length ≤ sumLens (insertKey off d p.blocks)
    · by_cases hh : sha1 (assembleBlocks (insertKey off d p.blocks)) =
        (pm.pieces_hash.drop (i * 20)).take 20
      · have hmark : mark_block_received sha1 pm i off d =
            .ok { pm with
                  piece_info := pm.piece_info.set i
                    { p with blocks := insertKey off d p.blocks, complete := true },
                  completed_pieces :=
                    insertKey i (assembleBlocks (insertKey off d p.blocks))
                      pm.completed_pieces } := by
          unfold mark_block_received
          rw [hp]
          simp only
          rw [if_pos hge, if_pos hh]
        simp only [applyOp, hmark]
        intro j hjc
        rw [pieceAt_set] at hjc ⊢
        by_cases hcond : i = j ∧ i < pm.piece_info.length
        · rw [if_pos hcond] at hjc
          simp at hjc
        · rw [if_neg hcond] at hjc ⊢
          exact h j hjc
      · have hmark : mark_block_received sha1 pm i off d =
            .ok { pm with
                  piece_info := pm.piece_info.set i
                    { p with blocks := [], requested := [] } } := by
          unfold mark_block_received
          rw [hp]
          simp only
          rw [if_pos hge, if_neg hh]
        simp only [applyOp, hmark]
        intro j hjc
        rw [pieceAt_set] at hjc ⊢
        by_cases hcond : i = j ∧ i < pm.piece_info.length
        · rw [if_pos hcond]
          simp [sumLens]
        · rw [if_neg hcond] at hjc ⊢
          exact h j hjc
    · have hmark : mark_block_received sha1 pm i off d =
          .ok { pm with
                piece_info := pm.piece_info.set i
                  { p with blocks := insertKey off d p.blocks } } := by
        unfold mark_block_received
        rw [hp]
        simp only
        rw [if_neg hge]
      simp only [applyOp, hmark]
      intro j hjc
      rw [pieceAt_set] at hjc ⊢
      by_cases hcond : i = j ∧ i < pm.piece_info.length
      · rw [if_pos hcond]
        simp only
        omega
      · rw [if_neg hcond] at hjc ⊢
        exact h j hjc

lemma pieceAt_initPM (piece_length total_length : Nat) (pieces_hash : Bytes)
    (i : Nat) :
    (pieceAt (initPM piece_length total_length pieces_hash) i).blocks = [] ∧
    (pieceAt (initPM piece_length total_length pieces_hash) i).requested = [] ∧
    (pieceAt (initPM piece_length total_length pieces_hash) i).complete = false := by
  unfold initPM pieceAt
  simp only [List.getElem?_map]
  by_cases h : i < pieces_hash.length / 20
  · rw [List.getElem?_range h]
    simp
  · rw [List.getElem?_eq_none_iff.mpr (by simpa using h)]
    exact ⟨rfl, rfl, rfl⟩

lemma blocksBounded_init (piece_length total_length : Nat) (pieces_hash : Bytes) :
    BlocksBounded (initPM piece_length total_length pieces_hash) := by
  intro i _
  rw [(pieceAt_initPM piece_length total_length pieces_hash i).1]
  simp [sumLens]

lemma blocksBounded_runOps (sha1 : Bytes → Bytes) (pm : PieceManager)
    (ops : List Op) (h : BlocksBounded pm) :
    BlocksBounded (runOps sha1 pm ops) := by
  induction ops generalizing pm with
  | nil => exact h
  | cons op rest ih =>
    cases op with
    | next => exact ih _ (blocksBounded_next pm h)
    | mark i off d => exact ih _ (blocksBounded_mark sha1 pm i off d h)

/-- Claim C4 (amended): in every state reachable from a freshly initialised
manager by any sequence of `get_next_request` / `mark_block_received` calls,
every piece whose `complete` flag is false satisfies
`sum(len(b) for b in blocks.values()) <= expected_length`.  (For a piece that
just passed verification the retained blocks may exceed `expected_length`;
see the counterexample.) -/
theorem blocks_length_invariant (sha1 : Bytes → Bytes)
    (piece_length total_length : Nat) (pieces_hash : Bytes)
    (ops : List Op) (i : Nat)
    (h : (pieceAt (runOps sha1 (initPM piece_length total_length pieces_hash)
        ops) i).complete = false) :
    sumLens (pieceAt (runOps sha1 (initPM piece_length total_length pieces_hash)
        ops) i).blocks ≤
      (pieceAt (runOps sha1 (initPM piece_length total_length pieces_hash)
        ops) i).expected_length :=
  blocksBounded_runOps sha1 _ ops
    (blocksBounded_init piece_length total_length pieces_hash) i h

/-- Witness for the amended C4 at a concrete run: one partial deposit. -/
theorem blocks_length_invariant_witness :
    sumLens (pieceAt (runOps constHash (initPM 32768 32768 (List.replicate 20 3))
        [.mark 0 0 [1, 2]]) 0).blocks ≤
      (pieceAt (runOps constHash (initPM 32768 32768 (List.replicate 20 3))
        [.mark 0 0 [1, 2]]) 0).expected_length :=
  blocks_length_invariant constHash 32768 32768 (List.replicate 20 3)
    [.mark 0 0 [1, 2]] 0 (by decide)

lemma complete_mono_step (sha1 : Bytes → Bytes) (pm : PieceManager) (op : Op)
    (i : Nat) (h : (pieceAt pm i).complete = true) :
    (pieceAt (applyOp sha1 pm op) i).complete = true := by
  cases op with
  | next =>
    show (pieceAt (get_next_request pm).2 i).complete = true
    cases hscan : scanPieces pm.piece_info with
    | none =>
      have hgnr : get_next_request pm = (none, pm) := by
        unfold get_next_request; rw [hscan]
      rw [hgnr]
      exact h
    | some io =>
      obtain ⟨i0, off0⟩ := io
      have hgnr : (get_next_request pm).2 =
          { pm with piece_info :=
              pm.piece_info.set i0 (addRequested (pieceAt pm i0) off0) } := by
        unfold get_next_request; rw [hscan]
      rw [hgnr]
      rw [pieceAt_set]
      by_cases hcond : i0 = i ∧ i0 < pm.piece_info.length
      · rw [if_pos hcond]
        obtain ⟨rfl, _⟩ := hcond
        exact h
      · rw [if_neg hcond]
        exact h
  | mark j off d =>
    cases hp : pm.piece_info[j]? with
    | none =>
      have herr : mark_block_received sha1 pm j off d = .error () := by
        unfold mark_block_received; rw [hp]
      simp only [applyOp, herr]
      exact h
    | some p =>
      have hpat : pieceAt pm j = p := pieceAt_of_getElem hp
      by_cases hge : p.expected_length ≤ sumLens (insertKey off d p.blocks)
      · by_cases hh : sha1 (assembleBlocks (insertKey off d p.blocks)) =
          (pm.pieces_hash.drop (j * 20)).take 20
        · have hmark : mark_block_received sha1 pm j off d =
              .ok { pm with
                    piece_info := pm.piece_info.set j
                      { p with blocks := insertKey off d p.blocks, complete := true },
                    completed_pieces :=
                      insertKey j (assembleBlocks (insertKey off d p.blocks))
                        pm.completed_pieces } := by
            unfold mark_block_received
            rw [hp]
            simp only
            rw [if_pos hge, if_pos hh]
          simp only [applyOp, hmark]
          rw [pieceAt_set]
          by_cases hcond : j = i ∧ j < pm.piece_info.length
          · rw [if_pos hcond]
          · rw [if_neg hcond]
            exact h
        · have hmark : mark_block_received sha1 pm j off d =
              .ok { pm with
                    piece_info := pm.piece_info.set j
                      { p with blocks := [], requested := [] } } := by
            unfold mark_block_received
            rw [hp]
            simp only
            rw [if_pos hge, if_neg hh]
          simp only [applyOp, hmark]
          rw [pieceAt_set]
          by_cases hcond : j = i ∧ j < pm.piece_info.length
          · rw [if_pos hcond]
            obtain ⟨rfl, _⟩ := hcond
            show p.complete = true
            rw [← hpat]
            exact h
          · rw [if_neg hcond]
            exact h
      · have hmark : mark_block_received sha1 pm j off d =
            .ok { pm with
                  piece_info := pm.piece_info.set j
                    { p with blocks := insertKey off d p.blocks } } := by
          unfold mark_block_received
          rw [hp]
          simp only
          rw [if_neg hge]
        simp only [applyOp, hmark]
        rw [pieceAt_set]
        by_cases hcond : j = i ∧ j < pm.piece_info.length
        · rw [if_pos hcond]
          obtain ⟨rfl, _⟩ := hcond
          show p.complete = true
          rw [← hpat]
          exact h
        · rw [if_neg hcond]
          exact h

lemma hasKey_completed_step (sha1 : Bytes → Bytes) (pm : PieceManager) (op : Op)
    (i : Nat) (h : hasKey pm.completed_pieces i = true) :
    hasKey (applyOp sha1 pm op).completed_pieces i = true := by
  cases op with
  | next =>
    show hasKey (get_next_request pm).2.completed_pieces i = true
    cases hscan : scanPieces pm.piece_info with
    | none =>
      have hgnr : get_next_request pm = (none, pm) := by
        unfold get_next_request; rw [hscan]
      rw [hgnr]
      exact h
    | some io =>
      obtain ⟨i0, off0⟩ := io
      have hgnr : (get_next_request pm).2 =
          { pm with piece_info :=
              pm.piece_info.set i0 (addRequested (pieceAt pm i0) off0) } := by
        unfold get_next_request; rw [hscan]
      rw [hgnr]
      exact h
  | mark j off d =>
    cases hp : pm.piece_info[j]? with
    | none =>
      have herr : mark_block_received sha1 pm j off d = .error () := by
        unfold mark_block_received; rw [hp]
      simp only [applyOp, herr]
      exact h
    | some p =>
      by_cases hge : p.expected_length ≤ sumLens (insertKey off d p.blocks)
      · by_cases hh : sha1 (assembleBlocks (insertKey off d p.blocks)) =
          (pm.pieces_hash.drop (j * 20)).take 20
        · have hmark : mark_block_received sha1 pm j off d =
              .ok { pm with
                    piece_info := pm.piece_info.set j
                      { p with blocks := insertKey off d p.blocks, complete := true },
                    completed_pieces :=
                      insertKey j (assembleBlocks (insertKey off d p.blocks))
                        pm.completed_pieces } := by
            unfold mark_block_received
            rw [hp]
            simp only
            rw [if_pos hge, if_pos hh]
          simp only [applyOp, hmark]
          exact hasKey_insertKey_of _ _ _ _ h
        · have hmark : mark_block_received sha1 pm j off d =
              .ok { pm with
                    piece_info := pm.piece_info.set j
                      { p with blocks := [], requested := [] } } := by
            unfold mark_block_received
            rw [hp]
            simp only
            rw [if_pos hge, if_neg hh]
          simp only [applyOp, hmark]
          exact h
      · have hmark : mark_block_received sha1 pm j off d =
            .ok { pm with
                  piece_info := pm.piece_info.set j
                    { p with blocks := insertKey off d p.blocks } } := by
          unfold mark_block_received
          rw [hp]
          simp only
          rw [if_neg hge]
        simp only [applyOp, hmark]
        exact h

lemma completeHasEntry_step (sha1 : Bytes → Bytes) (pm : PieceManager) (op : Op)
    (h : CompleteHasEntry pm) : CompleteHasEntry (applyOp sha1 pm op) := by
  cases op with
  | next =>
    intro i hic
    show hasKey (applyOp sha1 pm .next).completed_pieces i = true
    cases hscan : scanPieces pm.piece_info with
    | none =>
      have hgnr : get_next_request pm = (none, pm) := by
        unfold get_next_request; rw [hscan]
      show hasKey (get_next_request pm).2.completed_pieces i = true
      rw [hgnr]
      refine h i ?_
      have hic' : (pieceAt (get_next_request pm).2 i).complete = true := hic
      rw [hgnr] at hic'
      exact hic'
    | some io =>
      obtain ⟨i0, off0⟩ := io
      have hgnr : (get_next_request pm).2 =
          { pm with piece_info :=
              pm.piece_info.set i0 (addRequested (pieceAt pm i0) off0) } := by
        unfold get_next_request; rw [hscan]
      show hasKey (get_next_request pm).2.completed_pieces i = true
      rw [hgnr]
      have hic' : (pieceAt (get_next_request pm).2 i).complete = true := hic
      rw [hgnr, pieceAt_set] at hic'
      refine h i ?_
      by_cases hcond : i0 = i ∧ i0 < pm.piece_info.length
      · rw [if_pos hcond] at hic'
        obtain ⟨rfl, _⟩ := hcond
        exact hic'
      · rw [if_neg hcond] at hic'
        exact hic'
  | mark j off d =>
    intro i hic
    cases hp : pm.piece_info[j]? with
    | none =>
      have herr : mark_block_received sha1 pm j off d = .error () := by
        unfold mark_block_received; rw [hp]
      simp only [applyOp, herr] at hic ⊢
      exact h i hic
    | some p =>
      have hpat : pieceAt pm j = p := pieceAt_of_getElem hp
      by_cases hge : p.expected_length ≤ sumLens (insertKey off d p.blocks)
      · by_cases hh : sha1 (assembleBlocks (insertKey off d p.blocks)) =
          (pm.pieces_hash.drop (j * 20)).take 20
        · have hmark : mark_block_received sha1 pm j off d =
              .ok { pm with
                    piece_info := pm.piece_info.set j
                      { p with blocks := insertKey off d p.blocks, complete := true },
                    completed_pieces :=
                      insertKey j (assembleBlocks (insertKey off d p.blocks))
                        pm.completed_pieces } := by
            unfold mark_block_received
            rw [hp]
            simp only
            rw [if_pos hge, if_pos hh]
          simp only [applyOp, hmark] at hic ⊢
          by_cases hij : j = i
          · subst hij
            exact hasKey_insertKey_self _ _ _
          · rw [pieceAt_set] at hic
            rw [if_neg (by tauto)] at hic
            exact hasKey_insertKey_of _ _ _ _ (h i hic)
        · have hmark : mark_block_received sha1 pm j off d =
              .ok { pm with
                    piece_info := pm.piece_info.set j
                      { p with blocks := [], requested := [] } } := by
            unfold mark_block_received
            rw [hp]
            simp only
            rw [if_pos hge, if_neg hh]
          simp only [applyOp, hmark] at hic ⊢
          rw [pieceAt_set] at hic
          by_cases hcond : j = i ∧ j < pm.piece_info.length
          · rw [if_pos hcond] at hic
            obtain ⟨rfl, _⟩ := hcond
            refine h j ?_
            rw [hpat]
            exact hic
          · rw [if_neg hcond] at hic
            exact h i hic
      · have hmark : mark_block_received sha1 pm j off d =
            .ok { pm with
                  piece_info := pm.piece_info.set j
                    { p with blocks := insertKey off d p.blocks } } := by
          unfold mark_block_received
          rw [hp]
          simp only
          rw [if_neg hge]
        simp only [applyOp, hmark] at hic ⊢
        rw [pieceAt_set] at hic
        by_cases hcond : j = i ∧ j < pm.piece_info.length
        · rw [if_pos hcond] at hic
          obtain ⟨rfl, _⟩ := hcond
          refine h j ?_
          rw [hpat]
          exact hic
        · rw [if_neg hcond] at hic
          exact h i hic

lemma completeHasEntry_init (piece_length total_length : Nat)
    (pieces_hash : Bytes) :
    CompleteHasEntry (initPM piece_length total_length pieces_hash) := by
  intro i hic
  rw [(pieceAt_initPM piece_length total_length pieces_hash i).2.2] at hic
  cases hic

lemma completeHasEntry_runOps (sha1 : Bytes → Bytes) (pm : PieceManager)
    (ops : List Op) (h : CompleteHasEntry pm) :
    CompleteHasEntry (runOps sha1 pm ops) := by
  induction ops generalizing pm with
  | nil => exact h
  | cons op rest ih => exact ih _ (completeHasEntry_step sha1 pm op h)

lemma complete_mono_runOps (sha1 : Bytes → Bytes) (pm : PieceManager)
    (ops : List Op) (i : Nat) (h : (pieceAt pm i).complete = true) :
    (pieceAt (runOps sha1 pm ops) i).complete = true := by
  induction ops generalizing pm with
  | nil => exact h
  | cons op rest ih => exact ih _ (complete_mono_step sha1 pm op i h)

lemma hasKey_completed_runOps (sha1 : Bytes → Bytes) (pm : PieceManager)
    (ops : List Op) (i : Nat) (h : hasKey pm.completed_pieces i = true) :
    hasKey (runOps sha1 pm ops).completed_pieces i = true := by
  induction ops generalizing pm with
  | nil => exact h
  | cons op rest ih => exact ih _ (hasKey_completed_step sha1 pm op i h)

/-- Claim C5: once a piece's `complete` flag is true in a reachable state it
stays true under every later operation (including a deposit on the same
piece whose re-assembly fails verification), and its entry in the completion
ledger `completed_pieces` remains present throughout. -/
theorem complete_monotonic (sha1 : Bytes → Bytes)
    (piece_length total_length : Nat) (pieces_hash : Bytes)
    (ops more : List Op) (i : Nat)
    (h : (pieceAt (runOps sha1 (initPM piece_length total_length pieces_hash)
        ops) i).complete = true) :
    (pieceAt (runOps sha1 (runOps sha1
        (initPM piece_length total_length pieces_hash) ops) more) i).complete
      = true ∧
    hasKey (runOps sha1 (runOps sha1
        (initPM piece_length total_length pieces_hash) ops)
        more).completed_pieces i = true := by
  have hentry : CompleteHasEntry
      (runOps sha1 (initPM piece_length total_length pieces_hash) ops) :=
    completeHasEntry_runOps sha1 _ ops
      (completeHasEntry_init piece_length total_length pieces_hash)
  exact ⟨complete_mono_runOps sha1 _ more i h,
    hasKey_completed_runOps sha1 _ more i (hentry i h)⟩

/-- Witness for C5: a verified one-byte piece stays complete and in the
ledger across a further `get_next_request` call and a further failing
deposit. -/
theorem complete_monotonic_witness :
    (pieceAt (runOps constHash (runOps constHash
        (initPM 1 1 (List.replicate 20 0)) [.mark 0 0 [9]])
        [.next, .mark 0 16384 [1, 2]]) 0).complete = true ∧
    hasKey (runOps constHash (runOps constHash
        (initPM 1 1 (List.replicate 20 0)) [.mark 0 0 [9]])
        [.next, .mark 0 16384 [1, 2]]).completed_pieces 0 = true :=
  complete_monotonic constHash 1 1 (List.replicate 20 0) [.mark 0 0 [9]]
    [.next, .mark 0 16384 [1, 2]] 0 (by decide)

/-! ### Handshake lemmas -/

lemma headD_take (s : Bytes) : (s.take 68).headD 0 = s.headD 0 := by
  cases s <;> simp

lemma receive_handshake_char (stream lih : Bytes) :
    receive_handshake stream lih = true ↔
      68 ≤ stream.length ∧ stream.headD 0 = 19 ∧
      (stream.drop 1).take 19 = pstrBytes ∧
      (stream.drop 28).take 20 = lih := by
  have hpl : pstrBytes.length = 19 := rfl
  constructor
  · intro h
    unfold receive_handshake at h
    by_cases hlen : (stream.take 68).length < 68
    · rw [if_pos hlen] at h; cases h
    · rw [if_neg hlen] at h
      have hslen : 68 ≤ stream.length := by
        rw [List.length_take] at hlen; omega
      by_cases hp : ((stream.take 68).drop 1).take ((stream.take 68).headD 0)
          ≠ pstrBytes
      · rw [if_pos hp] at h; cases h
      · rw [if_neg hp] at h
        push_neg at hp
        have hn19 : (stream.take 68).headD 0 = 19 := by
          have hlp := congrArg List.length hp
          rw [List.length_take, List.length_drop, List.length_take, hpl] at hlp
          omega
        rw [hn19] at hp h
        refine ⟨hslen, by rw [← headD_take]; exact hn19, ?_, ?_⟩
        · rw [List.drop_take, List.take_take] at hp
          have h67 : min 19 (68 - 1) = 19 := by norm_num
          rw [h67] at hp
          exact hp
        · have h28 : (1 : Nat) + 19 + 8 = 28 := by norm_num
          rw [h28] at h
          rw [List.drop_take, List.take_take] at h
          have h40 : min 20 (68 - 28) = 20 := by norm_num
          rw [h40] at h
          exact (beq_iff_eq).mp h
  · rintro ⟨h1, h2, h3, h4⟩
    unfold receive_handshake
    rw [if_neg (by rw [List.length_take]; omega)]
    have hn19 : (stream.take 68).headD 0 = 19 := by rw [headD_take]; exact h2
    rw [hn19]
    have hpstr : ((stream.take 68).drop 1).take 19 = pstrBytes := by
      rw [List.drop_take, List.take_take]
      have h67 : min 19 (68 - 1) = 19 := by norm_num
      rw [h67]
      exact h3
    rw [if_neg (by rw [hpstr]; exact fun hne => hne rfl)]
    have h28 : (1 : Nat) + 19 + 8 = 28 := by norm_num
    rw [h28, List.drop_take, List.take_take]
    have h40 : min 20 (68 - 28) = 20 := by norm_num
    rw [h40, h4]
    exact beq_self_eq_true lih

/-- Claim C6: a received handshake is accepted iff `pstrlen = 19`, the 19
protocol bytes equal "BitTorrent protocol", and the embedded `info_hash`
(bytes 28..47) equals the local one — the 8 reserved bytes (20..27) are
unconstrained on receive and sent as zeros by `send_handshake`; hence a
handshake produced by `send_handshake` is accepted exactly when the two
sides' `info_hash` values agree. -/
theorem handshake_accepts_iff (stream local_info_hash : Bytes) :
    (receive_handshake stream local_info_hash = true ↔
      68 ≤ stream.length ∧ stream.headD 0 = 19 ∧
      (stream.drop 1).take 19 = pstrBytes ∧
      (stream.drop 28).take 20 = local_info_hash) ∧
    (∀ info_hash peer_id : Bytes, info_hash.length = 20 → peer_id.length = 20 →
      (receive_handshake (send_handshake info_hash peer_id) local_info_hash
          = true ↔ info_hash = local_info_hash)) := by
  refine ⟨receive_handshake_char stream local_info_hash, ?_⟩
  intro info_hash peer_id hih hpid
  have hpl : pstrBytes.length = 19 := rfl
  have hsend28 : send_handshake info_hash peer_id =
      ((19 :: pstrBytes) ++ List.replicate 8 0) ++ (info_hash ++ peer_id) := by
    simp [send_handshake]
  have hlen : (send_handshake info_hash peer_id).length = 68 := by
    rw [hsend28]
    simp [hih, hpid, hpl]
  have hdrop28 : (send_handshake info_hash peer_id).drop 28 =
      info_hash ++ peer_id := by
    rw [hsend28]
    exact List.drop_left' (by simp [hpl])
  rw [receive_handshake_char]
  constructor
  · rintro ⟨-, -, -, h4⟩
    rw [hdrop28, List.take_left' hih] at h4
    exact h4
  · intro heq
    refine ⟨by omega, ?_, ?_, ?_⟩
    · rw [hsend28]; rfl
    · rw [hsend28]
      show (pstrBytes ++ (List.replicate 8 0 ++ (info_hash ++ peer_id))).take 19
          = pstrBytes
      exact List.take_left' rfl
    · rw [hdrop28, List.take_left' hih, heq]

/-- Witness for C6: a concrete matching round trip is accepted. -/
theorem handshake_accepts_iff_witness :
    receive_handshake (send_handshake (List.replicate 20 5)
      (List.replicate 20 6)) (List.replicate 20 5) = true :=
  ((handshake_accepts_iff (send_handshake (List.replicate 20 5)
      (List.replicate 20 6)) (List.replicate 20 5)).2
    (List.replicate 20 5) (List.replicate 20 6) (by decide) (by decide)).mpr rfl

/-- Claim C7: a compact `peers` byte string is split into consecutive 6-byte
records; each record parses to the dotted-quad IPv4 of its first four bytes
and the big-endian 16-bit port of its last two; in particular the 12-byte
example yields `[("10.0.0.1", 6881), ("192.168.0.2", 6881)]`. -/
theorem compact_tracker_parse :
    (∀ (c rest : Bytes), c.length = 6 →
      parseCompactPeers (c ++ rest) = peerRecord c :: parseCompactPeers rest) ∧
    (∀ a b c d e f : Nat, peerRecord [a, b, c, d, e, f] =
      (String.intercalate "." [toString a, toString b, toString c, toString d],
        256 * e + f)) ∧
    parseCompactPeers [] = [] ∧
    parseCompactPeers [10, 0, 0, 1, 26, 225, 192, 168, 0, 2, 26, 225] =
      [("10.0.0.1", 6881), ("192.168.0.2", 6881)] := by
  refine ⟨?_, ?_, rfl, by decide⟩
  · intro c rest hc
    match c, hc with
    | [b1, b2, b3, b4, b5, b6], _ => rfl
  · intro a b c d e f
    unfold peerRecord fromBytesBE
    refine Prod.ext rfl ?_
    show (((0 * 256 + e) * 256 + f) : Nat) = 256 * e + f
    ring

/-- Witness for C7: the record-splitting law applied to the example input. -/
theorem compact_tracker_parse_witness :
    parseCompactPeers ([10, 0, 0, 1, 26, 225] ++ [192, 168, 0, 2, 26, 225]) =
      peerRecord [10, 0, 0, 1, 26, 225] ::
        parseCompactPeers [192, 168, 0, 2, 26, 225] :=
  compact_tracker_parse.1 [10, 0, 0, 1, 26, 225] [192, 168, 0, 2, 26, 225]
    (by decide)

/-! ### Session-loop lemmas -/

lemma finishIter_fst (st : SessionState) (pm : PieceManager)
    (outs0 : List OutMsg) : (finishIter st pm outs0).1 = st := by
  unfold finishIter
  by_cases hc : st.choked
  · rw [if_pos hc]
  · rw [if_neg hc]
    cases hg : get_next_request pm with
    | mk o pm2 =>
      cases o with
      | none => rfl
      | some t => obtain ⟨i, off, len⟩ := t; rfl

lemma finishIter_spec (st : SessionState) (pm : PieceManager)
    (outs0 : List OutMsg) (i off len : Nat)
    (h0 : OutMsg.request i off len ∉ outs0)
    (hmem : OutMsg.request i off len ∈ (finishIter st pm outs0).2.2.1) :
    (finishIter st pm outs0).1.choked = false := by
  rw [finishIter_fst]
  by_cases hc : st.choked
  · exfalso
    have houts : (finishIter st pm outs0).2.2.1 = outs0 := by
      unfold finishIter
      rw [if_pos hc]
    rw [houts] at hmem
    exact h0 hmem
  · simpa using hc

/-- Claim C8: in one iteration of the steady-state loop a `request` message
is sent only when the session's choked flag, as updated by this iteration's
dispatched message, is false; while choked the session sends no requests. -/
theorem no_request_while_choked (sha1 : Bytes → Bytes) (kaDue : Bool)
    (st : SessionState) (pm : PieceManager) (ev : RecvEvent)
    (i off len : Nat)
    (hmem : OutMsg.request i off len ∈ (loopIter sha1 kaDue st pm ev).2.2.1) :
    (loopIter sha1 kaDue st pm ev).1.choked = false := by
  have houts0 : OutMsg.request i off len ∉
      (if kaDue then [OutMsg.keepAlive] else []) := by
    cases kaDue <;> simp
  rcases ev with _ | ev2
  · have heq : (loopIter sha1 kaDue st pm none).2.2.1 =
        (if kaDue then [OutMsg.keepAlive] else []) := rfl
    rw [heq] at hmem
    exact absurd hmem houts0
  · rcases ev2 with _ | ⟨id, payload⟩
    · have heq : (loopIter sha1 kaDue st pm (some none)).2.2.1 =
          (if kaDue then [OutMsg.keepAlive] else []) := rfl
      rw [heq] at hmem
      exact absurd hmem houts0
    · have hbody : loopIter sha1 kaDue st pm (some (some (id, payload))) =
          (if id = 0 then
            finishIter { { st with consecutive_failures := 0 } with
              choked := true } pm (if kaDue then [OutMsg.keepAlive] else [])
          else if id = 1 then
            finishIter { { st with consecutive_failures := 0 } with
              choked := false } pm (if kaDue then [OutMsg.keepAlive] else [])
          else if id = 4 then
            if payload.length = 4 then
              finishIter { st with consecutive_failures := 0 } pm
                (if kaDue then [OutMsg.keepAlive] else [])
            else ({ st with consecutive_failures := 0 }, pm,
              (if kaDue then [OutMsg.keepAlive] else []), true)
          else if id = 7 then
            if payload.length < 8 then
              ({ st with consecutive_failures := 0 }, pm,
                (if kaDue then [OutMsg.keepAlive] else []), false)
            else
              match mark_block_received sha1 pm (fromBytesBE (payload.take 4))
                  (fromBytesBE ((payload.drop 4).take 4)) (payload.drop 8) with
              | .error _ => ({ st with consecutive_failures := 0 }, pm,
                  (if kaDue then [OutMsg.keepAlive] else []), true)
              | .ok pm' => finishIter { st with consecutive_failures := 0 } pm'
                  (if kaDue then [OutMsg.keepAlive] else [])
          else finishIter { st with consecutive_failures := 0 } pm
            (if kaDue then [OutMsg.keepAlive] else [])) := rfl
      rw [hbody] at hmem ⊢
      by_cases h0 : id = 0
      · rw [if_pos h0] at hmem ⊢
        exact finishIter_spec _ _ _ _ _ _ houts0 hmem
      · rw [if_neg h0] at hmem ⊢
        by_cases h1 : id = 1
        · rw [if_pos h1] at hmem ⊢
          exact finishIter_spec _ _ _ _ _ _ houts0 hmem
        · rw [if_neg h1] at hmem ⊢
          by_cases h4 : id = 4
          · rw [if_pos h4] at hmem ⊢
            by_cases hpl : payload.length = 4
            · rw [if_pos hpl] at hmem ⊢
              exact finishIter_spec _ _ _ _ _ _ houts0 hmem
            · rw [if_neg hpl] at hmem ⊢
              exact absurd hmem houts0
          · rw [if_neg h4] at hmem ⊢
            by_cases h7 : id = 7
            · rw [if_pos h7] at hmem ⊢
              by_cases hpl : payload.length < 8
              · rw [if_pos hpl] at hmem ⊢
                exact absurd hmem houts0
              · rw [if_neg hpl] at hmem ⊢
                revert hmem
                cases mark_block_received sha1 pm (fromBytesBE (payload.take 4))
                    (fromBytesBE ((payload.drop 4).take 4)) (payload.drop 8) with
                | error e =>
                  intro hmem
                  exact absurd hmem houts0
                | ok pm' =>
                  intro hmem
                  exact finishIter_spec _ _ _ _ _ _ houts0 hmem
            · rw [if_neg h7] at hmem ⊢
              exact finishIter_spec _ _ _ _ _ _ houts0 hmem

/-- Witness for C8: an `unchoke` message arriving at a choked session with an
available block makes the iteration send a request with the flag now false. -/
theorem no_request_while_choked_witness :
    (loopIter constHash false { choked := true, consecutive_failures := 0 }
      (initPM 32768 32768 (List.replicate 20 3))
      (some (some (1, [])))).1.choked = false :=
  no_request_while_choked constHash false
    { choked := true, consecutive_failures := 0 }
    (initPM 32768 32768 (List.replicate 20 3)) (some (some (1, [])))
    0 0 16384 (by decide)

/-! ### Assembly lemmas -/

lemma assembleLoop_false_iff (c : List (Nat × Bytes)) :
    ∀ (l : List Nat) (w : Bytes),
      (assembleLoop c l w).2 = false ↔ ∃ i ∈ l, lookupKey c i = none := by
  intro l
  induction l with
  | nil => intro w; simp [assembleLoop]
  | cons i rest ih =>
    intro w
    cases hl : lookupKey c i with
    | none =>
      constructor
      · intro _
        exact ⟨i, by simp, hl⟩
      · intro _
        simp [assembleLoop, hl]
    | some d =>
      constructor
      · intro h
        rw [show assembleLoop c (i :: rest) w = assembleLoop c rest (w ++ d) by
          simp [assembleLoop, hl]] at h
        obtain ⟨j, hj, hjl⟩ := (ih (w ++ d)).mp h
        exact ⟨j, by simp [hj], hjl⟩
      · rintro ⟨j, hj, hjl⟩
        rw [show assembleLoop c (i :: rest) w = assembleLoop c rest (w ++ d) by
          simp [assembleLoop, hl]]
        refine (ih (w ++ d)).mpr ⟨j, ?_, hjl⟩
        rcases List.mem_cons.mp hj with rfl | hmem
        · rw [hjl] at hl; cases hl
        · exact hmem

lemma concatPieces_none_iff (c : List (Nat × Bytes)) :
    ∀ l : List Nat,
      concatPieces c l = none ↔ ∃ i ∈ l, lookupKey c i = none := by
  intro l
  induction l with
  | nil => simp [concatPieces]
  | cons i rest ih =>
    cases hl : lookupKey c i with
    | none =>
      constructor
      · intro _
        exact ⟨i, by simp, hl⟩
      · intro _
        simp [concatPieces, hl]
    | some d =>
      constructor
      · intro h
        rw [show concatPieces c (i :: rest) =
            (concatPieces c rest).map (fun t => d ++ t) by
          simp [concatPieces, hl]] at h
        rw [Option.map_eq_none'] at h
        obtain ⟨j, hj, hjl⟩ := ih.mp h
        exact ⟨j, by simp [hj], hjl⟩
      · rintro ⟨j, hj, hjl⟩
        rw [show concatPieces c (i :: rest) =
            (concatPieces c rest).map (fun t => d ++ t) by
          simp [concatPieces, hl]]
        rw [Option.map_eq_none']
        refine ih.mpr ⟨j, ?_, hjl⟩
        rcases List.mem_cons.mp hj with rfl | hmem
        · rw [hjl] at hl; cases hl
        · exact hmem

lemma assembleLoop_partial (c : List (Nat × Bytes)) :
    ∀ (l1 : List Nat) (i : Nat) (l2 : List Nat) (w : Bytes),
      (∀ j ∈ l1, lookupKey c j ≠ none) → lookupKey c i = none →
      (assembleLoop c (l1 ++ i :: l2) w).1 =
        w ++ (l1.map (fun j => (lookupKey c j).getD [])).flatten := by
  intro l1
  induction l1 with
  | nil =>
    intro i l2 w _ hi
    simp [assembleLoop, hi]
  | cons j rest ih =>
    intro i l2 w hall hi
    obtain ⟨d, hd⟩ := Option.ne_none_iff_exists'.mp (hall j (by simp))
    rw [List.cons_append,
      show assembleLoop c (j :: (rest ++ i :: l2)) w =
        assembleLoop c (rest ++ i :: l2) (w ++ d) by simp [assembleLoop, hd]]
    rw [ih i l2 (w ++ d) (fun x hx => hall x (by simp [hx])) hi]
    simp [hd, List.append_assoc]

/-- Counterexample to claim C9 as stated: assembling a 2-piece single-file
torrent with piece 1 missing from the ledger fails, yet the output file was
already opened in "wb" mode and piece 0 written to it — a file with partial
content remains on disk. -/
theorem assemble_single_partial_file :
    (assemble_single_file [(0, [97, 98])] 2).2 = false ∧
    (assemble_single_file [(0, [97, 98])] 2).1 = [97, 98] ∧
    (assemble_single_file [(0, [97, 98])] 2).1 ≠ [] := by
  decide

/-- Claim C9 (amended): a missing piece aborts assembly with an error in both
modes; in multi-file mode nothing at all is written (the concatenation is
built before any file is opened), but in single-file mode the pieces that
precede the first missing index have already been written, so a partial
output file remains. -/
theorem assemble_missing_piece (completed : List (Nat × Bytes)) (total : Nat)
    (lengths : List Nat) :
    (assemble_multi_file completed total lengths = none ↔
      ∃ i, i < total ∧ lookupKey completed i = none) ∧
    ((assemble_single_file completed total).2 = false ↔
      ∃ i, i < total ∧ lookupKey completed i = none) ∧
    (∀ (l1 : List Nat) (i : Nat) (l2 : List Nat),
      List.range total = l1 ++ i :: l2 →
      (∀ j ∈ l1, lookupKey completed j ≠ none) →
      lookupKey completed i = none →
      (assemble_single_file completed total).1 =
        (l1.map (fun j => (lookupKey completed j).getD [])).flatten) := by
  refine ⟨?_, ?_, ?_⟩
  · unfold assemble_multi_file
    rw [Option.map_eq_none', concatPieces_none_iff]
    constructor
    · rintro ⟨i, hi, hl⟩
      exact ⟨i, List.mem_range.mp hi, hl⟩
    · rintro ⟨i, hi, hl⟩
      exact ⟨i, List.mem_range.mpr hi, hl⟩
  · unfold assemble_single_file
    rw [assembleLoop_false_iff]
    constructor
    · rintro ⟨i, hi, hl⟩
      exact ⟨i, List.mem_range.mp hi, hl⟩
    · rintro ⟨i, hi, hl⟩
      exact ⟨i, List.mem_range.mpr hi, hl⟩
  · intro l1 i l2 hsplit hall hi
    unfold assemble_single_file
    rw [hsplit, assembleLoop_partial completed l1 i l2 [] hall hi]
    rfl

/-- Witness for the amended C9: the example torrent with a missing piece 1
writes no file in multi-file mode. -/
theorem assemble_missing_piece_witness :
    assemble_multi_file [(0, [97, 98])] 2 [1, 1] = none :=
  (assemble_missing_piece [(0, [97, 98])] 2 [1, 1]).1.mpr
    ⟨1, by omega, by decide⟩

lemma mark_eq_cases (sha1 : Bytes → Bytes) (pm : PieceManager)
    (i off : Nat) (d : Bytes) (p : Piece) (hp : pm.piece_info[i]? = some p) :
    mark_block_received sha1 pm i off d =
      .ok { pm with
            piece_info := pm.piece_info.set i
              { p with blocks := insertKey off d p.blocks, complete := true },
            completed_pieces :=
              insertKey i (assembleBlocks (insertKey off d p.blocks))
                pm.completed_pieces } ∨
    mark_block_received sha1 pm i off d =
      .ok { pm with
            piece_info := pm.piece_info.set i
              { p with blocks := [], requested := [] } } ∨
    mark_block_received sha1 pm i off d =
      .ok { pm with
            piece_info := pm.piece_info.set i
              { p with blocks := insertKey off d p.blocks } } := by
  by_cases hge : p.expected_length ≤ sumLens (insertKey off d p.blocks)
  · by_cases hh : sha1 (assembleBlocks (insertKey off d p.blocks)) =
      (pm.pieces_hash.drop (i * 20)).take 20
    · refine Or.inl ?_
      unfold mark_block_received
      rw [hp]
      simp only
      rw [if_pos hge, if_pos hh]
    · refine Or.inr (Or.inl ?_)
      unfold mark_block_received
      rw [hp]
      simp only
      rw [if_pos hge, if_neg hh]
  · refine Or.inr (Or.inr ?_)
    unfold mark_block_received
    rw [hp]
    simp only
    rw [if_neg hge]

/-- Claim C10: `mark_block_received` has no bounds check — an index inside
`[0, total_pieces)` succeeds and mutates only that piece's entries, while an
index outside the range hits a missing `piece_info` key, raises `KeyError`
(before any mutation), and leaves the whole manager state unchanged. -/
theorem mark_block_received_bounds (sha1 : Bytes → Bytes) (pm : PieceManager)
    (i off : Nat) (d : Bytes)
    (hlen : pm.piece_info.length = pm.total_pieces) :
    (i < pm.total_pieces →
      (mark_block_received sha1 pm i off d).isOk = true ∧
      ∀ j, j ≠ i →
        pieceAt (applyOp sha1 pm (.mark i off d)) j = pieceAt pm j ∧
        lookupKey (applyOp sha1 pm (.mark i off d)).completed_pieces j =
          lookupKey pm.completed_pieces j) ∧
    (pm.total_pieces ≤ i →
      mark_block_received sha1 pm i off d = .error () ∧
      applyOp sha1 pm (.mark i off d) = pm) := by
  constructor
  · intro hi
    have hilen : i < pm.piece_info.length := by omega
    have hp : pm.piece_info[i]? = some pm.piece_info[i] :=
      List.getElem?_eq_some.mpr ⟨hilen, rfl⟩
    rcases mark_eq_cases sha1 pm i off d _ hp with hmark | hmark | hmark <;>
      refine ⟨by rw [hmark]; rfl, fun j hj => ?_⟩ <;>
      simp only [applyOp, hmark] <;>
      rw [pieceAt_set] <;>
      refine ⟨by rw [if_neg (by tauto)], ?_⟩
    · exact lookupKey_insertKey_ne i _ _ j hj
    · trivial
    · trivial
  · intro hi
    have hp : pm.piece_info[i]? = none :=
      List.getElem?_eq_none_iff.mpr (by omega)
    have herr : mark_block_received sha1 pm i off d = .error () := by
      unfold mark_block_received
      rw [hp]
    exact ⟨herr, by simp only [applyOp, herr]⟩

/-- Witness for C10 at a concrete manager: index 5 is outside a 1-piece
table, the call raises and the state is untouched. -/
theorem mark_block_received_bounds_witness :
    mark_block_received constHash (initPM 4 4 (List.replicate 20 0)) 5 0 [1]
      = .error () ∧
    applyOp constHash (initPM 4 4 (List.replicate 20 0)) (.mark 5 0 [1]) =
      initPM 4 4 (List.replicate 20 0) :=
  (mark_block_received_bounds constHash (initPM 4 4 (List.replicate 20 0))
    5 0 [1] (by decide)).2 (by decide)

end MiniBT
